import Mathlib

/-!
# A verification development for the MADlib CountMin sketch module

Shallow embedding of `methods/sketch/src/extended_sql/pg_gp/countmin.c`:
the Cormode–Muthukrishnan CountMin sketch with dyadic ranges, implemented
as PostgreSQL user-defined aggregate helpers.

Conventions of the embedding:

* C `int64` values are modelled as `Int`.  All arithmetic in the embedded
  code paths stays well inside the `int64` range (the value domain is
  `[MINVAL, MAXVAL] = [INT64_MIN >> 1, INT64_MAX >> 1]`, so after the
  explicit split at zero every width computation fits), hence plain `Int`
  arithmetic agrees with the machine arithmetic.  The one place where the
  C source deliberately computes in *unsigned* 64-bit arithmetic (the
  `(Datum) span >> dyad` shift in `cmsketch_rangecount_c`) is modelled
  explicitly by `datumShiftRight` below.
* C's `%` / `/` on a signed/unsigned operand pair (as in
  `bot % width`, `top / width` with `uint64 width`) converts the signed
  operand to `uint64`.  Because `width` is a power of two dividing
  `2 ^ 64`, that equals the mathematical (Euclidean) `Int.emod` /
  `Int.ediv`, which is what the embedding uses.  C's truncating signed
  division (as in the centile binary search, where the operands are
  non-negative along every path) is modelled by `Int.tdiv`.
* The floating-point `trunc(log2(sz))` followed by the downward
  correction loop `while (pow(2,dyad) > sz) dyad--;` computes the largest
  `dyad` with `2 ^ dyad ≤ sz`; it is modelled by the exact integer base-2
  logarithm `log2p` below.  The equi-width histogram's step, however,
  divides in `float8` a width that can exceed the 53-bit exact-integer
  range of binary64, so its rounding is observable; that pipeline is
  modelled bit-exactly with integer arithmetic (`wrap64`, `f64OfInt`,
  `f64DivTrunc`).
* Mutation through pointers becomes explicit state passing; `elog(ERROR)`
  becomes the `Except` monad, with the state at the moment of the abort
  as the error payload (the C error longjmps out, leaving the earlier
  increments of the aborted operation in the discarded buffer).
-/

/-! ## Constants

Modelled from the spec: the header `countmin.h` is not part of the given
sources, so the constants it defines are reconstructed from the spec's
description of the data model (signed 64-bit value domain with
`RANGES = LONGBITS = 64` dyadic levels; `DEPTH` hash rows of
`NUMCOUNTERS` counters each, left as parameters `D`, `N` here since the
spec treats them as tunables).  `MINVAL`/`MAXVAL` are the domain
extremes; they are taken as `INT64_MIN >> 1` / `INT64_MAX >> 1` — the
half-range choice under which every width computation in `countmin.c`
after the zero-straddle split fits in `int64`, as the comment above that
split requires. -/

/-- Number of bits of the `int64` domain (`LONGBITS` in the C source). -/
def LONGBITS : Nat := 64

/-- Number of dyadic ranges (levels); `RANGES = LONGBITS` in `countmin.h`. -/
def RANGES : Nat := 64

/-- `LONG_MAX`, the maximum of the C `int64` counter type. -/
def LONG_MAX : Int := 2 ^ 63 - 1

/-- Top of the value domain: `MAXVAL = INT64_MAX >> 1`. -/
def MAXVAL : Int := 2 ^ 62 - 1

/-- Bottom of the value domain: `MINVAL = INT64_MIN >> 1`. -/
def MINVAL : Int := -(2 ^ 62)

/-- The counter safety ceiling `LONG_MAX >> 1` tested by
`increment_counter` before bumping a counter. -/
def counter_ceiling : Int := 2 ^ 62 - 1

/-! ## Exact base-2 logarithm

`find_ranges_internal` computes `dyad = trunc(log2(top - bot + 1))`
followed by a downward correction loop, i.e. the largest power of two
that is at most `top - bot + 1`.  `log2p fuel n` is that exact integer
logarithm, written with an explicit halving fuel (64 halvings cover every
value below `2 ^ 64`) so that it is structurally recursive and evaluates
inside the kernel. -/

def log2p : Nat → Nat → Nat
  | 0, _ => 0
  | fuel + 1, n => if 2 ≤ n then log2p fuel (n / 2) + 1 else 0

/-- The dyad computed for the range `[bot, top]`: the exact
`⌊log2 (top - bot + 1)⌋` that the `trunc(log2(..))` plus correction loop
in `find_ranges_internal` produces. -/
def dyadOf (bot top : Int) : Nat := log2p 64 (top - bot + 1).toNat

/-! ## The recursive dyadic range decomposition (`find_ranges_internal`)

The C routine receives a recursion budget `power` (starting at
`RANGES - 1`) and returns silently when `power < 0`; the embedding uses
`fuel = power + 1`, so `fuel = 0` is the exhausted-budget case and the
initial call has `fuel = RANGES`.  Spans are appended to `r->spans` in
construction order, modelled by the returned list. -/

def find_ranges_internal (bot top : Int) : Nat → List (Int × Int)
  | 0 => []
  | fuel + 1 =>
    if top < bot then []
    else if top = bot then [(bot, bot)]
    else if 0 ≤ top ∧ bot < 0 then
      -- recurse to the left and right of 0 by hand, to keep widths in int64
      find_ranges_internal bot (-1) fuel ++ find_ranges_internal 0 top fuel
    else
      let width : Int := 2 ^ dyadOf bot top
      if bot = MINVAL ∨ bot % width = 0 then
        -- left-aligned on the dyad's min
        (bot, bot + width - 1) :: find_ranges_internal (bot + width) top fuel
      else if top = MAXVAL ∨ (top + 1) % width = 0 then
        -- right-aligned on the dyad's max
        (top - width + 1, top) :: find_ranges_internal bot (top - width) fuel
      else
        -- we straddle a power of 2
        let power_of_2 : Int := width * (top / width)
        find_ranges_internal bot (power_of_2 - 1) fuel ++
          find_ranges_internal power_of_2 top fuel

/-- `find_ranges`: kick off the recursion at power `RANGES - 1`
(fuel `RANGES`). -/
def find_ranges (bot top : Int) : List (Int × Int) :=
  find_ranges_internal bot top RANGES

/-! ## Specification of the decomposition output (claim C1's properties) -/

abbrev countmin : Type := Nat → Nat → Int

abbrev cmsketches : Type := Nat → countmin

/-- Write one counter cell of a level. -/
def updateCounter (sketch : countmin) (i col : Nat) (v : Int) : countmin :=
  fun i' c' => if i' = i ∧ c' = col then v else sketch i' c'

/-- `increment_counter`: the destructive increment lambda for
`hash_counters_iterate`.  If the counter already sits at
`LONG_MAX >> 1` it raises "maximum count exceeded in sketch", modelled
as an `Except.error` carrying the counters as mutated so far (the C
`elog(ERROR)` longjmps out, abandoning the buffer in that state);
otherwise the counter is bumped by exactly one. -/
def increment_counter (i col : Nat) (sketch : countmin) : Except countmin countmin :=
  if sketch i col = counter_ceiling then Except.error sketch
  else Except.ok (updateCounter sketch i col (sketch i col + 1))

/-- `min_counter`: the running-minimum lambda for `hash_counters_iterate`. -/
def min_counter (i col : Nat) (sketch : countmin) (transval : Int) : Int :=
  if sketch i col < transval then sketch i col else transval

/-- `hash_counters_iterate`: for each row `i < DEPTH`, take the 16-bit
digest chunk of that row mod `NUMCOUNTERS` as the column and invoke the
lambda.  The C passes the lambda as a function pointer; the two
instantiations are split here because the increment one is effectful.
This is the `min_counter` instantiation. -/
def hash_counters_iterate (D N : Nat) (digestRow : Nat → Nat)
    (sketch : countmin) (initial : Int) : Int :=
  (List.range D).foldl
    (fun acc i => min_counter i (digestRow i % N) sketch acc) initial

/-- `hash_counters_iterate` instantiated with `increment_counter`:
rows are processed in increasing order and the first row whose counter
sits at the ceiling aborts the iteration. -/
def hash_counters_iterate_inc (D N : Nat) (digestRow : Nat → Nat)
    (sketch : countmin) : Except countmin countmin :=
  (List.range D).foldlM
    (fun sk i => increment_counter i (digestRow i % N) sk) sketch

/-- `countmin_trans_c`: stringify and hash the value, then increment the
counters of one level indicated by the hash. -/
def countmin_trans_c (D N : Nat) (digest : Int → Nat → Nat)
    (sketch : countmin) (v : Int) : Except countmin countmin :=
  hash_counters_iterate_inc D N (digest v) sketch

/-- Replace level `j` of the sketch array. -/
def updateLevel (s : cmsketches) (j : Nat) (m : countmin) : cmsketches :=
  fun l => if l = j then m else s l

/-- `countmin_dyadic_trans_c`: one sketch insertion per dyadic range.
The C loop halves `inputi` (arithmetic shift `>>= 1`) once per
iteration, so level `j` sees `v >> j`, i.e. the floor `v / 2 ^ j`
(Lean's `/` on `Int` is the flooring Euclidean division). -/
def countmin_dyadic_trans_c (D N : Nat) (digest : Int → Nat → Nat)
    (transval : cmsketches) (v : Int) : Except cmsketches cmsketches :=
  (List.range RANGES).foldlM
    (fun s j =>
      match countmin_trans_c D N digest (s j) (v / 2 ^ j) with
      | Except.ok m => Except.ok (updateLevel s j m)
      | Except.error m => Except.error (updateLevel s j m))
    transval

/-- The freshly initialized state: `palloc0` zero-fills every counter. -/
def zero_sketch : cmsketches := fun _ _ _ => 0

/-- `cmsketch_check_transval`: an uninitialized transblob (a datum
smaller than `CM_TRANSVAL_SZ`, modelled as `none`) is replaced by a
zero-filled one; an initialized one is returned unchanged. -/
def cmsketch_check_transval (transblob : Option cmsketches) : cmsketches :=
  transblob.getD zero_sketch

/-- `cmsketch_trans`: the UDF transition.  It first runs
`cmsketch_check_transval`; a NULL input element (`none`) leaves the
counters untouched, otherwise the dyadic insertion runs. -/
def cmsketch_trans (D N : Nat) (digest : Int → Nat → Nat)
    (transblob : Option cmsketches) (item : Option Int) :
    Except cmsketches cmsketches :=
  match item with
  | none => Except.ok (cmsketch_check_transval transblob)
  | some v => countmin_dyadic_trans_c D N digest (cmsketch_check_transval transblob) v

/-- `cmsketch_combine`: allocate a copy of the first operand's blob and
add in the second operand's counters, elementwise, over all
`RANGES × DEPTH × NUMCOUNTERS` cells — with no check of any kind on the
sums.  The total-function model extends the pointwise addition to all
indices (cells outside the shape do not exist in the C array). -/
def cmsketch_combine (a b : cmsketches) : cmsketches :=
  fun i j k => a i j k + b i j k

/-- `cmsketch_getcount_c`: minimum, over the hash rows, of the selected
counters of one level, starting from `LONG_MAX`. -/
def cmsketch_getcount_c (D N : Nat) (digest : Int → Nat → Nat)
    (sketch : countmin) (v : Int) : Int :=
  hash_counters_iterate D N (digest v) sketch LONG_MAX

/-- `cmsketch_getcount`: the public point-count query; it reads level 0
(`transval->sketches[0]`) with the value hashed as is. -/
def cmsketch_getcount (D N : Nat) (digest : Int → Nat → Nat)
    (transval : cmsketches) (v : Int) : Int :=
  cmsketch_getcount_c D N digest (transval 0) v

/-- The `(Datum) r.spans[i][0] >> dyad` computation of
`cmsketch_rangecount_c`: the span's low bound is cast to the unsigned
64-bit `Datum` type, shifted logically, and the result is then consumed
as an `int64` value (reduce mod `2 ^ 64`, divide by `2 ^ k`,
reinterpret the 64-bit pattern as signed). -/
def datumShiftRight (x : Int) (k : Nat) : Int :=
  let u := x % 2 ^ 64
  let s := u / 2 ^ k
  if s < 2 ^ 63 then s else s - 2 ^ 64

/-- `cmsketch_rangecount_c`: sum the point estimates of the dyadic
spans of `[bot, top]`.  Each span's width is an exact power of two, so
the `log2` of the width is exact and is modelled by `log2p`. -/
def cmsketch_rangecount_c (D N : Nat) (digest : Int → Nat → Nat)
    (transval : cmsketches) (bot top : Int) : Int :=
  (find_ranges bot top).foldl
    (fun cursum s =>
      let dyad := log2p 64 (s.2 - s.1 + 1).toNat
      cursum +
        cmsketch_getcount_c D N digest (transval dyad) (datumShiftRight s.1 dyad))
    0

/-- The binary-search loop of `cmsketch_centile_c`.  `fuel` counts the
remaining iterations (the C `for` runs at most `LONGBITS - 1` of them);
the loop exits early on an exact hit or once `higuess - loguess ≤ 1`,
returning the current guess.  `Int.tdiv` is C's truncating `int64`
division; its operands are non-negative along every reachable path. -/
def centile_search (F : Int → Int) (centile_cnt : Int) :
    Nat → Int → Int → Int → Int
  | 0, _, _, curguess => curguess
  | fuel + 1, loguess, higuess, curguess =>
    if 1 < higuess - loguess then
      if F curguess = centile_cnt then curguess
      else if centile_cnt < F curguess then
        centile_search F centile_cnt fuel loguess curguess
          (loguess + Int.tdiv (curguess - loguess) 2)
      else
        centile_search F centile_cnt fuel curguess higuess
          (higuess - Int.tdiv (higuess - curguess) 2)
    else curguess

/-- `cmsketch_centile_c`: reject centiles outside 1–99 ("centiles must
be between 1-99 inclusive", modelled as `Except.error ()`), then
binary-search the value domain for `total * intcentile / 100` using
full-prefix range counts. -/
def cmsketch_centile_c (D N : Nat) (digest : Int → Nat → Nat)
    (transval : cmsketches) (intcentile : Int) (total : Int) : Except Unit Int :=
  if intcentile ≤ 0 ∨ 100 ≤ intcentile then Except.error ()
  else
    Except.ok (centile_search
      (fun g => cmsketch_rangecount_c D N digest transval MINVAL g)
      (Int.tdiv (total * intcentile) 100) (LONGBITS - 1) MINVAL MAXVAL 0)

/-! ### The `float8` step computation of `cmsketch_width_histogram_c`

The C computes `step = MAX(trunc((float8)(max-min+1) / (float8)buckets), 1)`:
the width `max - min + 1` is an `int64` expression (wrapping in practice
for widths reaching `2 ^ 63`, e.g. the full domain), converted to an
IEEE-754 binary64 (`float8`, 53-bit significand, round to nearest, ties
to even), divided by the — always exactly representable — `buckets`, and
the correctly rounded quotient truncated toward zero.  For widths above
`2 ^ 53` this genuinely differs from the exact `⌊width / buckets⌋`, so
the pipeline is modelled bit-exactly with integer arithmetic below. -/

/-- Two's-complement wraparound of an `int64` expression. -/
def wrap64 (x : Int) : Int := (x + 2 ^ 63) % 2 ^ 64 - 2 ^ 63

/-- Round the ratio `X / Y` (`Y ≥ 1`) to the nearest integer, ties to
even — the IEEE-754 default rounding. -/
def roundHalfEven (X Y : Nat) : Nat :=
  if X % Y * 2 < Y then X / Y
  else if Y < X % Y * 2 then X / Y + 1
  else if X / Y % 2 = 0 then X / Y else X / Y + 1

/-- `⌊log2 (A / B)⌋` of the exact rational `A / B` (`A, B ≥ 1`), possibly
negative: the binary64 exponent of the quotient. -/
def f64QuotExp (A B : Nat) : Int :=
  if B ≤ A then (log2p 64 (A / B) : Int)
  else -((log2p 64 ((B - 1) / A) + 1 : Nat) : Int)

/-- The binary64 value of an integer `x` with `|x| ≤ 2 ^ 63`: exact up
to `2 ^ 53`, otherwise rounded to the nearest multiple of the ulp
`2 ^ (e - 52)`, ties to even (the `(float8)` cast of an `int64`). -/
def f64OfInt (x : Int) : Int :=
  if x.natAbs ≤ 2 ^ 53 then x
  else
    let u := 2 ^ (log2p 64 x.natAbs - 52)
    if x < 0 then -((roundHalfEven x.natAbs u * u : Nat) : Int)
    else ((roundHalfEven x.natAbs u * u : Nat) : Int)

/-- Truncation of the correctly rounded binary64 quotient `A / B` of two
exactly representable non-negative integers: with `e` the quotient's
exponent, the significand `roundHalfEven` lands in `[2 ^ 52, 2 ^ 53]`
and the rounded value is that significand times `2 ^ (e - 52)`. -/
def f64DivTrunc (A B : Nat) : Nat :=
  if A = 0 then 0
  else if 52 ≤ f64QuotExp A B then
    roundHalfEven A (B * 2 ^ (f64QuotExp A B - 52).toNat) *
      2 ^ (f64QuotExp A B - 52).toNat
  else
    roundHalfEven (A * 2 ^ (52 - f64QuotExp A B).toNat) B /
      2 ^ (52 - f64QuotExp A B).toNat

/-- The step of `cmsketch_width_histogram_c`:
`MAX(trunc((float8)(max-min+1) / (float8)buckets), 1)`, with the width
computed in wrapping `int64` and the quotient taken in binary64
(truncation toward zero, so a negative wrapped width yields a
non-positive truncation and the `MAX` makes the step 1).  `(float8)` of
the C `int` `buckets` is always exact.  Converting a quotient that
reaches `2 ^ 63` back to `int64` — reachable only for `buckets = 1` and
widths within 512 of `2 ^ 63` — is undefined behavior in C; the model
returns the mathematical truncation there. -/
def width_histogram_step (mn mx : Int) (buckets : Nat) : Int :=
  max (if f64OfInt (wrap64 (mx - mn + 1)) < 0 then
        -((f64DivTrunc (f64OfInt (wrap64 (mx - mn + 1))).natAbs buckets : Nat) : Int)
      else ((f64DivTrunc (f64OfInt (wrap64 (mx - mn + 1))).toNat buckets : Nat) : Int))
    1

/-- The bucket-emission loop of `cmsketch_width_histogram_c`: bucket `i`
starts at `min + i * step`; the loop breaks as soon as a bucket's low
bound exceeds `max`; the last requested bucket's high bound is forced to
`max`.  Structural fuel `buckets - i` mirrors the `i < buckets` bound. -/
def width_histogram_loop (D N : Nat) (digest : Int → Nat → Nat)
    (transval : cmsketches) (mn mx step : Int) (buckets : Nat) :
    Nat → Nat → List (Int × Int × Int)
  | 0, _ => []
  | fuel + 1, i =>
    if mx < mn + i * step then []
    else
      ((mn + i * step, if i = buckets - 1 then mx else mn + (i + 1) * step - 1,
          cmsketch_rangecount_c D N digest transval (mn + i * step)
            (if i = buckets - 1 then mx else mn + (i + 1) * step - 1)) ::
        width_histogram_loop D N digest transval mn mx step buckets fuel (i + 1))

/-- `cmsketch_width_histogram_c`: equi-width histogram with
`step = MAX(trunc((float8)(max-min+1) / (float8)buckets), 1)` as
computed by `width_histogram_step`. -/
def cmsketch_width_histogram_c (D N : Nat) (digest : Int → Nat → Nat)
    (transval : cmsketches) (mn mx : Int) (buckets : Nat) : List (Int × Int × Int) :=
  width_histogram_loop D N digest transval mn mx
    (width_histogram_step mn mx buckets) buckets buckets 0

/-- Build a sketch state by a sequence of insertions through the
aggregate transition, starting from the freshly initialized all-zero
state. -/
def buildSketch (D N : Nat) (digest : Int → Nat → Nat) (vs : List Int) :
    Except cmsketches cmsketches :=
  vs.foldlM (fun s v => countmin_dyadic_trans_c D N digest s v) zero_sketch

/-- A state with every counter at the safety ceiling (concrete test
state). -/
def ceiling_sketches : cmsketches := fun _ _ _ => counter_ceiling

/-- A state with every counter at one (concrete test state). -/
def one_sketches : cmsketches := fun _ _ _ => 1

/-- The constant-zero digest (concrete test digest). -/
def zeroDigest : Int → Nat → Nat := fun _ _ => 0

theorem fri_zero_split (bot top : Int) (f : Nat) (h1 : bot < 0) (h2 : 0 ≤ top) :
    find_ranges_internal bot top (f + 1) =
      find_ranges_internal bot (-1) f ++ find_ranges_internal 0 top f := by
  have hnl : ¬ top < bot := by omega
  have hne : ¬ top = bot := by omega
  simp [find_ranges_internal, hnl, hne, h1, h2]

/-- C4: for every `bot < 0 ≤ top`, `find_ranges` splits the request at
the zero boundary into `[bot, -1]` and `[0, top]` and recurses on each
independently (with budget `RANGES - 1` minus one), never computing a
width `top - bot + 1` across zero; in particular `find_ranges (-1) 1`
yields exactly the spans `[-1, -1]` and `[0, 1]`. -/
theorem find_ranges_zero_split :
    (∀ bot top : Int, bot < 0 → 0 ≤ top →
      find_ranges bot top =
        find_ranges_internal bot (-1) (RANGES - 1) ++
          find_ranges_internal 0 top (RANGES - 1)) ∧
      find_ranges (-1) 1 = [(-1, -1), (0, 1)] :=
  ⟨fun bot top hb ht => fri_zero_split bot top 63 hb ht, by decide⟩

theorem find_ranges_zero_split_witness :
    find_ranges (-5) 7 =
      find_ranges_internal (-5) (-1) (RANGES - 1) ++
        find_ranges_internal 0 7 (RANGES - 1) :=
  find_ranges_zero_split.1 (-5) 7 (by decide) (by decide)

/-! ## Merge (`cmsketch_combine`) -/

/-- C3: merge of sketches is, counter-wise, commutative, associative,
and has the all-zero sketch as identity, for all sketch states (the
shape is fixed by the structure, so all states are same-shape). -/
theorem cmsketch_combine_monoid_laws (a b c : cmsketches) :
    cmsketch_combine a zero_sketch = a ∧
    cmsketch_combine a b = cmsketch_combine b a ∧
    cmsketch_combine (cmsketch_combine a b) c =
      cmsketch_combine a (cmsketch_combine b c) := by
  refine ⟨?_, ?_, ?_⟩ <;> funext i j k <;>
    simp [cmsketch_combine, zero_sketch] <;> ring

/-- C6 counterexample: merging two states whose counters sit at the
safety ceiling stores the sum `2 * counter_ceiling` — a value crossing
the ceiling — with no error raised anywhere: `cmsketch_combine` has no
overflow or ceiling check at all (it is a total function on states). -/
theorem cmsketch_combine_stores_past_ceiling :
    cmsketch_combine ceiling_sketches ceiling_sketches 0 0 0 =
        2 * counter_ceiling ∧
      counter_ceiling < 2 * counter_ceiling := by
  constructor
  · show counter_ceiling + counter_ceiling = 2 * counter_ceiling
    ring
  · decide

/-- C6 (amended): merge adds the second operand's counters into a copy
of the first elementwise, with no ceiling rule applied after summing;
any sum, including one crossing the safety ceiling, is stored silently. -/
theorem cmsketch_combine_pointwise_add (a b : cmsketches) (i j k : Nat) :
    cmsketch_combine a b i j k = a i j k + b i j k := rfl

/-! ## The aggregate transition on NULL input -/

/-- C10: invoking the insertion transition with a NULL input value
returns the state with every counter of every level, row, and column
unchanged; the only possible effect is first-time initialization of an
uninitialized state to all-zero counters. -/
theorem cmsketch_trans_null_frame (D N : Nat) (digest : Int → Nat → Nat)
    (transblob : Option cmsketches) :
    cmsketch_trans D N digest transblob none =
        Except.ok (cmsketch_check_transval transblob) ∧
      (∀ sk, transblob = some sk →
        ∀ l i c, cmsketch_check_transval transblob l i c = sk l i c) ∧
      (transblob = none →
        ∀ l i c, cmsketch_check_transval transblob l i c = 0) := by
  refine ⟨rfl, ?_, ?_⟩
  · intro sk h l i c
    rw [h]
    rfl
  · intro h l i c
    rw [h]
    rfl

theorem cmsketch_trans_null_frame_witness :
    cmsketch_trans 1 1 zeroDigest (some one_sketches) none =
      Except.ok (cmsketch_check_transval (some one_sketches)) :=
  (cmsketch_trans_null_frame 1 1 zeroDigest (some one_sketches)).1

/-! ## The per-counter increment iteration (`increment_counter` through
`hash_counters_iterate`) -/

theorem inc_fold_ok_spec (N : Nat) (digestRow : Nat → Nat) :
    ∀ (ls : List Nat) (sk sk' : countmin), ls.Nodup →
    ls.foldlM (fun s i => increment_counter i (digestRow i % N) s) sk
        = Except.ok sk' →
    (∀ i ∈ ls, sk i (digestRow i % N) ≠ counter_ceiling) ∧
      ∀ i c, sk' i c = sk i c +
        (if i ∈ ls ∧ c = digestRow i % N then 1 else 0) := by
  intro ls
  induction ls with
  | nil =>
    intro sk sk' _ h
    simp only [List.foldlM_nil, pure, Except.pure, Except.ok.injEq] at h
    subst h
    refine ⟨by simp, ?_⟩
    intro i c
    simp
  | cons a t ih =>
    intro sk sk' hnd h
    rw [List.foldlM_cons] at h
    by_cases hg : sk a (digestRow a % N) = counter_ceiling
    · rw [show increment_counter a (digestRow a % N) sk = Except.error sk from
        if_pos hg] at h
      have h' : (Except.error sk : Except countmin countmin) = Except.ok sk' := h
      exact absurd h' (by simp)
    · rw [show increment_counter a (digestRow a % N) sk =
          Except.ok (updateCounter sk a (digestRow a % N)
            (sk a (digestRow a % N) + 1)) from if_neg hg] at h
      have h' : t.foldlM (fun s i => increment_counter i (digestRow i % N) s)
          (updateCounter sk a (digestRow a % N) (sk a (digestRow a % N) + 1))
            = Except.ok sk' := h
      have hand : a ∉ t := (List.nodup_cons.mp hnd).1
      obtain ⟨hclean, hform⟩ := ih _ sk' (List.nodup_cons.mp hnd).2 h'
      constructor
      · intro i hi
        rcases List.mem_cons.mp hi with rfl | hit
        · exact hg
        · have := hclean i hit
          have hne : i ≠ a := fun hia => hand (hia ▸ hit)
          simpa [updateCounter, hne] using this
      · intro i c
        rw [hform i c]
        simp only [updateCounter]
        by_cases hia : i = a
        · subst hia
          by_cases hc : c = digestRow i % N
          · subst hc
            have hnt : ¬ (i ∈ t) := hand
            simp [hnt]
          · simp [hc]
        · simp [hia, List.mem_cons]

theorem inc_fold_ok_of_clean (N : Nat) (digestRow : Nat → Nat) :
    ∀ (ls : List Nat) (sk : countmin), ls.Nodup →
    (∀ i ∈ ls, sk i (digestRow i % N) ≠ counter_ceiling) →
    ∃ sk', ls.foldlM (fun s i => increment_counter i (digestRow i % N) s) sk
      = Except.ok sk' := by
  intro ls
  induction ls with
  | nil =>
    intro sk _ _
    exact ⟨sk, rfl⟩
  | cons a t ih =>
    intro sk hnd hclean
    rw [List.foldlM_cons]
    have hg : sk a (digestRow a % N) ≠ counter_ceiling :=
      hclean a (List.mem_cons_self a t)
    rw [show increment_counter a (digestRow a % N) sk =
        Except.ok (updateCounter sk a (digestRow a % N)
          (sk a (digestRow a % N) + 1)) from if_neg hg]
    show ∃ sk', t.foldlM (fun s i => increment_counter i (digestRow i % N) s)
      (updateCounter sk a (digestRow a % N) (sk a (digestRow a % N) + 1))
        = Except.ok sk'
    refine ih _ (List.nodup_cons.mp hnd).2 ?_
    intro i hit
    have hne : i ≠ a := fun hia => (List.nodup_cons.mp hnd).1 (hia ▸ hit)
    simpa [updateCounter, hne] using hclean i (List.mem_cons_of_mem a hit)

theorem inc_fold_abort_spec (N : Nat) (digestRow : Nat → Nat) :
    ∀ (D : Nat) (sk : countmin) (i0 : Nat), i0 < D →
    (∀ j, j < i0 → sk j (digestRow j % N) ≠ counter_ceiling) →
    sk i0 (digestRow i0 % N) = counter_ceiling →
    ∃ e, (List.range D).foldlM
        (fun s i => increment_counter i (digestRow i % N) s) sk
        = Except.error e ∧
      ∀ i c, e i c = sk i c +
        (if i < i0 ∧ c = digestRow i % N then 1 else 0) := by
  intro D
  induction D with
  | zero => intro sk i0 h; omega
  | succ D ih =>
    intro sk i0 hi0 hclean hceil
    rcases (by omega : i0 < D ∨ i0 = D) with hlt | heq
    · obtain ⟨e, heq2, hform⟩ := ih sk i0 hlt hclean hceil
      refine ⟨e, ?_, hform⟩
      rw [List.range_succ, List.foldlM_append, heq2]
      rfl
    · subst heq
      have hnd := List.nodup_range i0
      have hclean' : ∀ i ∈ List.range i0,
          sk i (digestRow i % N) ≠ counter_ceiling :=
        fun i hi => hclean i (List.mem_range.mp hi)
      obtain ⟨sk1, hok⟩ := inc_fold_ok_of_clean N digestRow (List.range i0) sk
        hnd hclean'
      obtain ⟨_, hform1⟩ := inc_fold_ok_spec N digestRow (List.range i0) sk sk1
        hnd hok
      have hskD : sk1 i0 (digestRow i0 % N) = sk i0 (digestRow i0 % N) := by
        rw [hform1]
        simp [List.mem_range]
      refine ⟨sk1, ?_, ?_⟩
      · rw [List.range_succ, List.foldlM_append, hok]
        show List.foldlM (fun s i => increment_counter i (digestRow i % N) s)
          sk1 [i0] = Except.error sk1
        rw [List.foldlM_cons,
          show increment_counter i0 (digestRow i0 % N) sk1 = Except.error sk1
            from if_pos (hskD.trans hceil)]
        rfl
      · intro i c
        rw [hform1 i c]
        simp [List.mem_range]

/-- C5: the per-counter increment operation
(`hash_counters_iterate` with `increment_counter`) raises the overflow
error exactly when some selected counter (row `i < D`, column given by
the digest) is already at the safety ceiling `counter_ceiling` — a value
strictly below the counter type's maximum `LONG_MAX`; on that error the
operation aborts before mutating any further counters (rows before the
first offending one are incremented, all others untouched) and
propagates the error; otherwise each selected counter increases by
exactly 1 and every other counter is unchanged (no saturation, no
wraparound). -/
theorem hash_counters_iterate_inc_spec (D N : Nat) (digestRow : Nat → Nat)
    (sk : countmin) :
    ((∃ sk', hash_counters_iterate_inc D N digestRow sk = Except.ok sk') ↔
      ∀ i, i < D → sk i (digestRow i % N) ≠ counter_ceiling) ∧
    (∀ sk', hash_counters_iterate_inc D N digestRow sk = Except.ok sk' →
      ∀ i c, sk' i c = sk i c +
        (if i < D ∧ c = digestRow i % N then 1 else 0)) ∧
    (∀ i0, i0 < D → (∀ j, j < i0 → sk j (digestRow j % N) ≠ counter_ceiling) →
      sk i0 (digestRow i0 % N) = counter_ceiling →
      ∃ e, hash_counters_iterate_inc D N digestRow sk = Except.error e ∧
        ∀ i c, e i c = sk i c +
          (if i < i0 ∧ c = digestRow i % N then 1 else 0)) ∧
    counter_ceiling < LONG_MAX := by
  refine ⟨⟨?_, ?_⟩, ?_, ?_, by decide⟩
  · rintro ⟨sk', hok⟩ i hi
    exact (inc_fold_ok_spec N digestRow (List.range D) sk sk'
      (List.nodup_range D) hok).1 i (List.mem_range.mpr hi)
  · intro hclean
    exact inc_fold_ok_of_clean N digestRow (List.range D) sk
      (List.nodup_range D) (fun i hi => hclean i (List.mem_range.mp hi))
  · intro sk' hok i c
    have := (inc_fold_ok_spec N digestRow (List.range D) sk sk'
      (List.nodup_range D) hok).2 i c
    rw [this]
    simp [List.mem_range]
  · intro i0 hi0 hclean hceil
    exact inc_fold_abort_spec N digestRow D sk i0 hi0 hclean hceil

theorem hash_counters_iterate_inc_spec_witness :
    (hash_counters_iterate_inc 2 1 (fun _ => 0)
        (updateCounter (fun _ _ => 0) 1 0 counter_ceiling)).isOk = false := by
  have h := (hash_counters_iterate_inc_spec 2 1 (fun _ => 0)
    (updateCounter (fun _ _ => 0) 1 0 counter_ceiling)).2.2.1 1 (by omega)
    (by decide) (by decide)
  obtain ⟨e, he, _⟩ := h
  rw [he]
  rfl

/-! ## The dyadic insertion (`countmin_dyadic_trans_c`) -/

theorem dyadic_fold_ok_spec (D N : Nat) (digest : Int → Nat → Nat) (v : Int) :
    ∀ (ls : List Nat) (s s' : cmsketches), ls.Nodup →
    ls.foldlM
        (fun t j =>
          match countmin_trans_c D N digest (t j) (v / 2 ^ j) with
          | Except.ok m => Except.ok (updateLevel t j m)
          | Except.error m => Except.error (updateLevel t j m)) s
      = Except.ok s' →
    (∀ l i c, s' l i c = s l i c +
        (if l ∈ ls ∧ i < D ∧ c = digest (v / 2 ^ l) i % N then 1 else 0)) ∧
    ∀ l ∈ ls, ∀ i, i < D →
      s l i (digest (v / 2 ^ l) i % N) ≠ counter_ceiling := by
  intro ls
  induction ls with
  | nil =>
    intro s s' _ h
    have h' : s = s' := by
      have : (Except.ok s : Except cmsketches cmsketches) = Except.ok s' := h
      exact Except.ok.inj this
    subst h'
    exact ⟨by intro l i c; simp, by simp⟩
  | cons a t ih =>
    intro s s' hnd h
    rw [List.foldlM_cons] at h
    cases hm : countmin_trans_c D N digest (s a) (v / 2 ^ a) with
    | error m =>
      rw [hm] at h
      have h' : (Except.error (updateLevel s a m) :
          Except cmsketches cmsketches) = Except.ok s' := h
      exact absurd h' (by simp)
    | ok m =>
      rw [hm] at h
      have h' : t.foldlM
          (fun t j =>
            match countmin_trans_c D N digest (t j) (v / 2 ^ j) with
            | Except.ok m => Except.ok (updateLevel t j m)
            | Except.error m => Except.error (updateLevel t j m))
          (updateLevel s a m) = Except.ok s' := h
      have hand : a ∉ t := (List.nodup_cons.mp hnd).1
      obtain ⟨hform1, hlev⟩ := ih (updateLevel s a m) s'
        (List.nodup_cons.mp hnd).2 h'
      -- the successful row iteration of level `a`
      obtain ⟨hcleanA, hformA⟩ := inc_fold_ok_spec N (digest (v / 2 ^ a))
        (List.range D) (s a) m (List.nodup_range D) hm
      constructor
      · intro l i c
        rw [hform1 l i c]
        by_cases hla : l = a
        · subst hla
          have hnt : ¬ (l ∈ t) := hand
          have hupd : updateLevel s l m l = m := by simp [updateLevel]
          rw [hupd, hformA i c]
          simp only [List.mem_range, List.mem_cons]
          by_cases hiD : i < D
          · by_cases hc : c = digest (v / 2 ^ l) i % N
            · simp [hiD, hc, hnt]
            · simp [hc]
          · simp [hiD]
        · simp only [updateLevel, if_neg hla]
          simp [List.mem_cons, hla]
      · intro l hl i hiD
        rcases List.mem_cons.mp hl with rfl | hlt
        · exact hcleanA i (List.mem_range.mpr hiD)
        · have hne : l ≠ a := fun hla => hand (hla ▸ hlt)
          have := hlev l hlt i hiD
          simpa [updateLevel, hne] using this

/-- What one successful dyadic insertion does to the counters, stated on
`countmin_dyadic_trans_c` itself. -/
theorem countmin_dyadic_trans_c_ok_spec (D N : Nat) (digest : Int → Nat → Nat)
    (v : Int) (s s' : cmsketches)
    (h : countmin_dyadic_trans_c D N digest s v = Except.ok s') :
    (∀ l i c, s' l i c = s l i c +
        (if l < RANGES ∧ i < D ∧ c = digest (v / 2 ^ l) i % N then 1 else 0)) ∧
    ∀ l, l < RANGES → ∀ i, i < D →
      s l i (digest (v / 2 ^ l) i % N) ≠ counter_ceiling := by
  obtain ⟨hform, hlev⟩ := dyadic_fold_ok_spec D N digest v (List.range RANGES)
    s s' (List.nodup_range RANGES) h
  constructor
  · intro l i c
    rw [hform l i c]
    simp [List.mem_range]
  · intro l hl i hiD
    exact hlev l (List.mem_range.mpr hl) i hiD

theorem min_fold_ge (N : Nat) (digestRow : Nat → Nat) (sk : countmin) (t : Int) :
    ∀ (ls : List Nat) (init : Int), t ≤ init →
    (∀ i ∈ ls, t ≤ sk i (digestRow i % N)) →
    t ≤ ls.foldl (fun acc i => min_counter i (digestRow i % N) sk acc) init := by
  intro ls
  induction ls with
  | nil =>
    intro init h _
    simpa using h
  | cons a l ih =>
    intro init h hall
    rw [List.foldl_cons]
    apply ih
    · unfold min_counter
      split
      · exact hall a (List.mem_cons_self a l)
      · exact h
    · intro i hi
      exact hall i (List.mem_cons_of_mem _ hi)

/-- Invariant tracking along a whole insertion sequence: counters stay
within `[0, counter_ceiling]`, and the level-0 cells selected by a value
`v` grow by at least the number of inserted copies of `v`. -/
theorem buildSketch_tracks (D N : Nat) (digest : Int → Nat → Nat) (v : Int) :
    ∀ (vs : List Int) (s sk : cmsketches),
    vs.foldlM (fun t w => countmin_dyadic_trans_c D N digest t w) s
      = Except.ok sk →
    (∀ l i c, 0 ≤ s l i c ∧ s l i c ≤ counter_ceiling) →
    (∀ l i c, 0 ≤ sk l i c ∧ sk l i c ≤ counter_ceiling) ∧
      ∀ i, i < D →
        s 0 i (digest v i % N) + (vs.count v : Int) ≤ sk 0 i (digest v i % N) := by
  intro vs
  induction vs with
  | nil =>
    intro s sk h hb
    have h2 : (Except.ok s : Except cmsketches cmsketches) = Except.ok sk := h
    have h' : s = sk := Except.ok.inj h2
    subst h'
    exact ⟨hb, by intro i _; simp⟩
  | cons w ws ih =>
    intro s sk h hb
    rw [List.foldlM_cons] at h
    cases hm : countmin_dyadic_trans_c D N digest s w with
    | error m =>
      rw [hm] at h
      have h2 : (Except.error m : Except cmsketches cmsketches) = Except.ok sk := h
      exact absurd h2 (by simp)
    | ok s1 =>
      rw [hm] at h
      have h' : ws.foldlM (fun t w => countmin_dyadic_trans_c D N digest t w) s1
          = Except.ok sk := h
      obtain ⟨hform, hclean⟩ := countmin_dyadic_trans_c_ok_spec D N digest w s s1 hm
      have hb1 : ∀ l i c, 0 ≤ s1 l i c ∧ s1 l i c ≤ counter_ceiling := by
        intro l i c
        rw [hform l i c]
        by_cases hcond : l < RANGES ∧ i < D ∧ c = digest (w / 2 ^ l) i % N
        · obtain ⟨hb0, hb2⟩ := hb l i c
          have hne : s l i c ≠ counter_ceiling := by
            rw [hcond.2.2]
            exact hclean l hcond.1 i hcond.2.1
          rw [if_pos hcond]
          omega
        · rw [if_neg hcond]
          simpa using hb l i c
      obtain ⟨hbsk, hcount⟩ := ih s1 sk h' hb1
      refine ⟨hbsk, ?_⟩
      intro i hiD
      have hc := hcount i hiD
      have hdelta : s 0 i (digest v i % N) + (if w = v then 1 else 0) ≤
          s1 0 i (digest v i % N) := by
        rw [hform 0 i (digest v i % N)]
        by_cases hwv : w = v
        · subst hwv
          have hzero : w / 2 ^ (0 : Nat) = w := by norm_num
          rw [hzero]
          rw [if_pos (⟨by decide, hiD, rfl⟩ :
            0 < RANGES ∧ i < D ∧ digest w i % N = digest w i % N)]
          simp
        · rw [if_neg hwv]
          split <;> omega
      have hcc : ((w :: ws).count v : Int) =
          (ws.count v : Int) + (if w = v then 1 else 0) := by
        by_cases hwv : w = v <;> simp [List.count_cons, hwv]
      rw [hcc]
      omega

/-- C2: for every value `v` and every sketch state built by inserting
`v` exactly `n` times, possibly interleaved with insertions of other
values (all successful), the point-count query on `v` returns at least
`n`. -/
theorem cmsketch_getcount_ge_insert_count (D N : Nat) (digest : Int → Nat → Nat)
    (vs : List Int) (v : Int) (sk : cmsketches) (hD : 0 < D)
    (hbuild : buildSketch D N digest vs = Except.ok sk) :
    (vs.count v : Int) ≤ cmsketch_getcount D N digest sk v := by
  have hzb : ∀ l i c, 0 ≤ zero_sketch l i c ∧ zero_sketch l i c ≤ counter_ceiling := by
    intro l i c
    refine ⟨le_refl 0, ?_⟩
    show (0 : Int) ≤ counter_ceiling
    decide
  obtain ⟨hbounds, hcells⟩ := buildSketch_tracks D N digest v vs zero_sketch sk
    hbuild hzb
  have hz : ∀ i : Nat, zero_sketch 0 i (digest v i % N) = 0 := fun i => rfl
  have hcnt_le : (vs.count v : Int) ≤ counter_ceiling := by
    have h1 := hcells 0 hD
    have h2 := (hbounds 0 0 (digest v 0 % N)).2
    have h3 := hz 0
    omega
  show (vs.count v : Int) ≤
    (List.range D).foldl (fun acc i => min_counter i (digest v i % N) (sk 0) acc)
      LONG_MAX
  apply min_fold_ge
  · have : counter_ceiling < LONG_MAX := by decide
    omega
  · intro i hi
    have h1 := hcells i (List.mem_range.mp hi)
    have h3 := hz i
    omega

theorem cmsketch_getcount_ge_insert_count_witness :
    ((([5, 5] : List Int).count 5 : Int)) ≤ cmsketch_getcount 1 1 zeroDigest
      ((buildSketch 1 1 zeroDigest [5, 5]).toOption.getD zero_sketch) 5 := by
  cases hb : buildSketch 1 1 zeroDigest [5, 5] with
  | error e =>
    have hsome : (buildSketch 1 1 zeroDigest [5, 5]).isOk = true := by decide
    rw [hb] at hsome
    simp [Except.isOk, Except.toBool] at hsome
  | ok sk =>
    have h := cmsketch_getcount_ge_insert_count 1 1 zeroDigest [5, 5] 5 sk
      (by omega) hb
    simpa [hb, Except.toOption] using h

/-! ## The centile binary search (`cmsketch_centile_c`) -/

theorem tdiv_eq_ediv_nonneg (a b : Int) (ha : 0 ≤ a) (hb : 0 ≤ b) :
    a.tdiv b = a / b := by
  obtain ⟨m, rfl⟩ := Int.eq_ofNat_of_zero_le ha
  obtain ⟨n, rfl⟩ := Int.eq_ofNat_of_zero_le hb
  rfl

theorem centile_search_zero (F : Int → Int) (t lo hi cur : Int) :
    centile_search F t 0 lo hi cur = cur := rfl

theorem centile_search_stop (F : Int → Int) (t : Int) (f : Nat) (lo hi cur : Int)
    (h : ¬ 1 < hi - lo) : centile_search F t (f + 1) lo hi cur = cur := by
  simp [centile_search, h]

theorem centile_search_hit (F : Int → Int) (t : Int) (f : Nat) (lo hi cur : Int)
    (h : 1 < hi - lo) (he : F cur = t) :
    centile_search F t (f + 1) lo hi cur = cur := by
  simp [centile_search, h, he]

theorem centile_search_over (F : Int → Int) (t : Int) (f : Nat) (lo hi cur : Int)
    (h : 1 < hi - lo) (he : ¬ F cur = t) (hgt : t < F cur) :
    centile_search F t (f + 1) lo hi cur =
      centile_search F t f lo cur (lo + (cur - lo).tdiv 2) := by
  simp [centile_search, h, he, hgt]

theorem centile_search_under (F : Int → Int) (t : Int) (f : Nat) (lo hi cur : Int)
    (h : 1 < hi - lo) (he : ¬ F cur = t) (hgt : ¬ t < F cur) :
    centile_search F t (f + 1) lo hi cur =
      centile_search F t f cur hi (hi - (hi - cur).tdiv 2) := by
  simp [centile_search, h, he, hgt]

/-- The binary search never escapes the current `[loguess, higuess]`
bracket. -/
theorem centile_search_bounds (F : Int → Int) (t : Int) :
    ∀ (fuel : Nat) (lo hi cur : Int), lo ≤ cur → cur ≤ hi →
    lo ≤ centile_search F t fuel lo hi cur ∧
      centile_search F t fuel lo hi cur ≤ hi := by
  intro fuel
  induction fuel with
  | zero =>
    intro lo hi cur h1 h2
    exact ⟨h1, h2⟩
  | succ f ih =>
    intro lo hi cur h1 h2
    by_cases hwin : 1 < hi - lo
    · by_cases he : F cur = t
      · rw [centile_search_hit F t f lo hi cur hwin he]
        exact ⟨h1, h2⟩
      · by_cases hgt : t < F cur
        · rw [centile_search_over F t f lo hi cur hwin he hgt]
          have htd : (cur - lo).tdiv 2 = (cur - lo) / 2 :=
            tdiv_eq_ediv_nonneg _ _ (by omega) (by omega)
          obtain ⟨g1, g2⟩ := ih lo cur (lo + (cur - lo).tdiv 2)
            (by rw [htd]; omega) (by rw [htd]; omega)
          exact ⟨g1, le_trans g2 h2⟩
        · rw [centile_search_under F t f lo hi cur hwin he hgt]
          have htd : (hi - cur).tdiv 2 = (hi - cur) / 2 :=
            tdiv_eq_ediv_nonneg _ _ (by omega) (by omega)
          obtain ⟨g1, g2⟩ := ih cur hi (hi - (hi - cur).tdiv 2)
            (by rw [htd]; omega) (by rw [htd]; omega)
          exact ⟨le_trans h1 g1, g2⟩
    · rw [centile_search_stop F t f lo hi cur hwin]
      exact ⟨h1, h2⟩

/-- Monotonicity of the binary search in the target count: both runs
walk the same deterministic path until the first query that separates
the two targets, after which the lower-target run is bracketed below the
current guess and the higher-target run above it. -/
theorem centile_search_mono (F : Int → Int) :
    ∀ (fuel : Nat) (lo hi cur t1 t2 : Int), lo ≤ cur → cur ≤ hi → t1 ≤ t2 →
    centile_search F t1 fuel lo hi cur ≤ centile_search F t2 fuel lo hi cur := by
  intro fuel
  induction fuel with
  | zero =>
    intro lo hi cur t1 t2 _ _ _
    exact le_refl _
  | succ f ih =>
    intro lo hi cur t1 t2 h1 h2 h12
    by_cases hwin : 1 < hi - lo
    · by_cases he1 : F cur = t1
      · rw [centile_search_hit F t1 f lo hi cur hwin he1]
        by_cases he2 : F cur = t2
        · rw [centile_search_hit F t2 f lo hi cur hwin he2]
        · have hgt2 : ¬ t2 < F cur := by omega
          rw [centile_search_under F t2 f lo hi cur hwin he2 hgt2]
          have htd : (hi - cur).tdiv 2 = (hi - cur) / 2 :=
            tdiv_eq_ediv_nonneg _ _ (by omega) (by omega)
          exact (centile_search_bounds F t2 f cur hi (hi - (hi - cur).tdiv 2)
            (by rw [htd]; omega) (by rw [htd]; omega)).1
      · by_cases he2 : F cur = t2
        · rw [centile_search_hit F t2 f lo hi cur hwin he2]
          have hgt1 : t1 < F cur := by omega
          rw [centile_search_over F t1 f lo hi cur hwin he1 hgt1]
          have htd : (cur - lo).tdiv 2 = (cur - lo) / 2 :=
            tdiv_eq_ediv_nonneg _ _ (by omega) (by omega)
          exact (centile_search_bounds F t1 f lo cur (lo + (cur - lo).tdiv 2)
            (by rw [htd]; omega) (by rw [htd]; omega)).2
        · by_cases hgt2 : t2 < F cur
          · have hgt1 : t1 < F cur := by omega
            rw [centile_search_over F t1 f lo hi cur hwin he1 hgt1,
              centile_search_over F t2 f lo hi cur hwin he2 hgt2]
            have htd : (cur - lo).tdiv 2 = (cur - lo) / 2 :=
              tdiv_eq_ediv_nonneg _ _ (by omega) (by omega)
            exact ih lo cur (lo + (cur - lo).tdiv 2) t1 t2
              (by rw [htd]; omega) (by rw [htd]; omega) h12
          · by_cases hgt1 : t1 < F cur
            · -- the separating query: t1 < F cur ≤ t2 (and F cur ≠ t2)
              rw [centile_search_over F t1 f lo hi cur hwin he1 hgt1,
                centile_search_under F t2 f lo hi cur hwin he2 hgt2]
              have htd1 : (cur - lo).tdiv 2 = (cur - lo) / 2 :=
                tdiv_eq_ediv_nonneg _ _ (by omega) (by omega)
              have htd2 : (hi - cur).tdiv 2 = (hi - cur) / 2 :=
                tdiv_eq_ediv_nonneg _ _ (by omega) (by omega)
              have hleft := (centile_search_bounds F t1 f lo cur
                (lo + (cur - lo).tdiv 2)
                (by rw [htd1]; omega) (by rw [htd1]; omega)).2
              have hright := (centile_search_bounds F t2 f cur hi
                (hi - (hi - cur).tdiv 2)
                (by rw [htd2]; omega) (by rw [htd2]; omega)).1
              omega
            · rw [centile_search_under F t1 f lo hi cur hwin he1 hgt1,
                centile_search_under F t2 f lo hi cur hwin he2 hgt2]
              have htd : (hi - cur).tdiv 2 = (hi - cur) / 2 :=
                tdiv_eq_ediv_nonneg _ _ (by omega) (by omega)
              exact ih cur hi (hi - (hi - cur).tdiv 2) t1 t2
                (by rw [htd]; omega) (by rw [htd]; omega) h12
    · rw [centile_search_stop F t1 f lo hi cur hwin,
        centile_search_stop F t2 f lo hi cur hwin]

theorem foldl_add_nonneg (g : (Int × Int) → Int) (hg : ∀ s, 0 ≤ g s) :
    ∀ (ss : List (Int × Int)) (acc : Int), 0 ≤ acc →
    0 ≤ ss.foldl (fun cursum s => cursum + g s) acc := by
  intro ss
  induction ss with
  | nil =>
    intro acc h
    simpa using h
  | cons a l ih =>
    intro acc h
    rw [List.foldl_cons]
    exact ih _ (by have := hg a; omega)

/-- Range counts over a state with non-negative counters are
non-negative. -/
theorem cmsketch_rangecount_c_nonneg (D N : Nat) (digest : Int → Nat → Nat)
    (tv : cmsketches) (hnn : ∀ l i c, 0 ≤ tv l i c) (bot top : Int) :
    0 ≤ cmsketch_rangecount_c D N digest tv bot top := by
  unfold cmsketch_rangecount_c
  apply foldl_add_nonneg
  · intro s
    apply min_fold_ge
    · decide
    · intro i _
      exact hnn _ i _
  · exact le_refl 0

/-- C8: for every sketch state with non-negative counters and non-zero
total count, and percentiles `0 < p1 < p2 < 100`, the centile search is
monotone: `centile (p1) ≤ centile (p2)`. -/
theorem cmsketch_centile_c_mono (D N : Nat) (digest : Int → Nat → Nat)
    (tv : cmsketches) (p1 p2 : Int)
    (hnn : ∀ l i c, 0 ≤ tv l i c)
    (hp1 : 0 < p1) (h12 : p1 < p2) (hp2 : p2 < 100)
    (_htot : cmsketch_rangecount_c D N digest tv MINVAL MAXVAL ≠ 0) :
    ∀ g1 g2,
      cmsketch_centile_c D N digest tv p1
          (cmsketch_rangecount_c D N digest tv MINVAL MAXVAL) = Except.ok g1 →
      cmsketch_centile_c D N digest tv p2
          (cmsketch_rangecount_c D N digest tv MINVAL MAXVAL) = Except.ok g2 →
      g1 ≤ g2 := by
  intro g1 g2 hg1 hg2
  set total := cmsketch_rangecount_c D N digest tv MINVAL MAXVAL with htotdef
  have hv1 : ¬ (p1 ≤ 0 ∨ 100 ≤ p1) := by omega
  have hv2 : ¬ (p2 ≤ 0 ∨ 100 ≤ p2) := by omega
  rw [cmsketch_centile_c, if_neg hv1] at hg1
  rw [cmsketch_centile_c, if_neg hv2] at hg2
  have hg1' := Except.ok.inj hg1
  have hg2' := Except.ok.inj hg2
  subst hg1'
  subst hg2'
  have htot0 : 0 ≤ total := cmsketch_rangecount_c_nonneg D N digest tv hnn _ _
  have ht12 : (total * p1).tdiv 100 ≤ (total * p2).tdiv 100 := by
    rw [tdiv_eq_ediv_nonneg _ _ (mul_nonneg htot0 (by omega)) (by norm_num),
      tdiv_eq_ediv_nonneg _ _ (mul_nonneg htot0 (by omega)) (by norm_num)]
    exact Int.ediv_le_ediv (by norm_num)
      (mul_le_mul_of_nonneg_left (le_of_lt h12) htot0)
  exact centile_search_mono _ (LONGBITS - 1) MINVAL MAXVAL 0
    ((total * p1).tdiv 100) ((total * p2).tdiv 100)
    (by decide) (by decide) ht12

theorem cmsketch_centile_c_mono_witness :
    ((cmsketch_centile_c 1 1 zeroDigest one_sketches 30
        (cmsketch_rangecount_c 1 1 zeroDigest one_sketches MINVAL MAXVAL)
      ).toOption.getD 0) ≤
      ((cmsketch_centile_c 1 1 zeroDigest one_sketches 60
          (cmsketch_rangecount_c 1 1 zeroDigest one_sketches MINVAL MAXVAL)
        ).toOption.getD 0) := by
  have h := cmsketch_centile_c_mono 1 1 zeroDigest one_sketches 30 60
    (by intro l i c; show (0 : Int) ≤ 1; decide)
    (by decide) (by decide) (by decide) (by decide)
  cases h1 : cmsketch_centile_c 1 1 zeroDigest one_sketches 30
      (cmsketch_rangecount_c 1 1 zeroDigest one_sketches MINVAL MAXVAL) with
  | error e =>
    rw [show cmsketch_centile_c 1 1 zeroDigest one_sketches 30
        (cmsketch_rangecount_c 1 1 zeroDigest one_sketches MINVAL MAXVAL)
      = Except.ok (centile_search
          (fun g => cmsketch_rangecount_c 1 1 zeroDigest one_sketches MINVAL g)
          ((cmsketch_rangecount_c 1 1 zeroDigest one_sketches MINVAL MAXVAL
            * 30).tdiv 100) (LONGBITS - 1) MINVAL MAXVAL 0)
      from if_neg (by omega)] at h1
    exact absurd h1 (by simp)
  | ok g1 =>
    cases h2 : cmsketch_centile_c 1 1 zeroDigest one_sketches 60
        (cmsketch_rangecount_c 1 1 zeroDigest one_sketches MINVAL MAXVAL) with
    | error e =>
      rw [show cmsketch_centile_c 1 1 zeroDigest one_sketches 60
          (cmsketch_rangecount_c 1 1 zeroDigest one_sketches MINVAL MAXVAL)
        = Except.ok (centile_search
            (fun g => cmsketch_rangecount_c 1 1 zeroDigest one_sketches MINVAL g)
            ((cmsketch_rangecount_c 1 1 zeroDigest one_sketches MINVAL MAXVAL
              * 60).tdiv 100) (LONGBITS - 1) MINVAL MAXVAL 0)
        from if_neg (by omega)] at h2
      exact absurd h2 (by simp)
    | ok g2 =>
      simpa [h1, h2, Except.toOption] using h g1 g2 h1 h2

/-! ## The equi-width histogram (`cmsketch_width_histogram_c`) -/

theorem width_histogram_loop_spec (D N : Nat) (digest : Int → Nat → Nat)
    (tv : cmsketches) (mn mx step : Int) (buckets : Nat) :
    ∀ (fuel i : Nat),
    (width_histogram_loop D N digest tv mn mx step buckets fuel i).length ≤ fuel ∧
    ((width_histogram_loop D N digest tv mn mx step buckets fuel i).length < fuel →
      mx < mn + ((i : Int) +
        ((width_histogram_loop D N digest tv mn mx step buckets fuel i).length
          : Int)) * step) ∧
    ∀ j, (hj : j <
        (width_histogram_loop D N digest tv mn mx step buckets fuel i).length) →
      (width_histogram_loop D N digest tv mn mx step buckets fuel i).get ⟨j, hj⟩ =
        (mn + ((i : Int) + (j : Int)) * step,
          if i + j = buckets - 1 then mx
            else mn + ((i : Int) + (j : Int) + 1) * step - 1,
          cmsketch_rangecount_c D N digest tv (mn + ((i : Int) + (j : Int)) * step)
            (if i + j = buckets - 1 then mx
              else mn + ((i : Int) + (j : Int) + 1) * step - 1)) ∧
        mn + ((i : Int) + (j : Int)) * step ≤ mx := by
  intro fuel
  induction fuel with
  | zero =>
    intro i
    refine ⟨by simp [width_histogram_loop], by simp [width_histogram_loop], ?_⟩
    intro j hj
    simp [width_histogram_loop] at hj
  | succ f ih =>
    intro i
    by_cases hstop : mx < mn + i * step
    · have hrw : width_histogram_loop D N digest tv mn mx step buckets (f + 1) i
          = [] := by
        simp [width_histogram_loop, hstop]
      rw [hrw]
      refine ⟨by simp, ?_, ?_⟩
      · intro _
        simpa using hstop
      · intro j hj
        simp at hj
    · have hrw : width_histogram_loop D N digest tv mn mx step buckets (f + 1) i
          = (mn + i * step,
              if i = buckets - 1 then mx else mn + (i + 1) * step - 1,
              cmsketch_rangecount_c D N digest tv (mn + i * step)
                (if i = buckets - 1 then mx else mn + (i + 1) * step - 1)) ::
            width_histogram_loop D N digest tv mn mx step buckets f (i + 1) := by
        simp [width_histogram_loop, hstop]
      rw [hrw]
      obtain ⟨ihlen, ihstop, ihget⟩ := ih (i + 1)
      refine ⟨by simpa using ihlen, ?_, ?_⟩
      · intro hlt
        simp only [List.length_cons] at hlt ⊢
        have h2 := ihstop (by omega)
        have heq : mn + ((i : Int) +
            (((width_histogram_loop D N digest tv mn mx step buckets f
              (i + 1)).length + 1 : Nat) : Int)) * step
            = mn + (((i + 1 : Nat) : Int) +
              ((width_histogram_loop D N digest tv mn mx step buckets f
                (i + 1)).length : Int)) * step := by
          push_cast
          ring
        rw [heq]
        exact h2
      · intro j hj
        cases j with
        | zero =>
          constructor
          · show (_, _, _) = (_, _, _)
            norm_num
          · simpa using hstop
        | succ j' =>
          simp only [List.length_cons] at hj
          have hj' : j' < (width_histogram_loop D N digest tv mn mx step buckets f
              (i + 1)).length := by omega
          have hget := ihget j' hj'
          have hic : ((i : Int) + ((j' + 1 : Nat) : Int))
              = (((i + 1 : Nat) : Int) + (j' : Int)) := by
            push_cast
            ring
          have hnc : i + (j' + 1) = (i + 1) + j' := by omega
          rw [hic, hnc]
          refine ⟨?_, hget.2⟩
          show (width_histogram_loop D N digest tv mn mx step buckets f
            (i + 1)).get ⟨j', hj'⟩ = _
          exact hget.1

/-- C9 counterexample: the claim's step formula
`max(⌊(max-min+1)/buckets⌋, 1)` is not what the program computes.  At
`min = 0`, `max = 2 ^ 60`, `buckets = 3` the `int64` width `2 ^ 60 + 1`
rounds to `2 ^ 60` when converted to `float8`, and the truncated
binary64 quotient is `384307168202282304`, while the exact floor is
`384307168202282325`; consequently the first emitted bucket's high
bound (`min + step - 1`) differs from the bound the claim prescribes. -/
theorem cmsketch_width_histogram_c_step_counterexample :
    width_histogram_step 0 (2 ^ 60) 3 = 384307168202282304 ∧
    max (((2 ^ 60 : Int) - 0 + 1).tdiv 3) 1 = 384307168202282325 ∧
    ((cmsketch_width_histogram_c 1 1 zeroDigest zero_sketch 0 (2 ^ 60) 3).getD 0
        (0, 0, 0)).2.1 = 384307168202282303 ∧
    ¬ ((cmsketch_width_histogram_c 1 1 zeroDigest zero_sketch 0 (2 ^ 60) 3).getD 0
        (0, 0, 0)).2.1 = 0 + max (((2 ^ 60 : Int) - 0 + 1).tdiv 3) 1 - 1 := by
  refine ⟨by decide, by decide, ?_, ?_⟩ <;> decide

/-- C9 (amended): for every `min ≤ max` and `buckets ≥ 1`, the
equi-width histogram uses
`step = max(trunc((float8)(max-min+1) / (float8)buckets), 1)` — the
binary64 quotient of the wrapping `int64` width, as computed by
`width_histogram_step` — not the exact integer floor; with that step,
bucket `j` has low bound `min + j*step` and high bound
`min + (j+1)*step - 1`, except the final (`buckets`-th) bucket whose
high bound is `max`; buckets are emitted in order exactly until a
bucket's low bound would exceed `max` (so fewer than requested may be
produced); and each bucket's count is the range count of its bounds. -/
theorem cmsketch_width_histogram_c_float_step_spec (D N : Nat)
    (digest : Int → Nat → Nat)
    (tv : cmsketches) (mn mx : Int) (buckets : Nat)
    (_hmm : mn ≤ mx) (_hb : 1 ≤ buckets) :
    ∀ H step, H = cmsketch_width_histogram_c D N digest tv mn mx buckets →
      step = width_histogram_step mn mx buckets →
    H.length ≤ buckets ∧
    (H.length < buckets → mx < mn + (H.length : Int) * step) ∧
    ∀ j, (hj : j < H.length) →
      H.get ⟨j, hj⟩ =
        (mn + (j : Int) * step,
          if j = buckets - 1 then mx else mn + ((j : Int) + 1) * step - 1,
          cmsketch_rangecount_c D N digest tv (mn + (j : Int) * step)
            (if j = buckets - 1 then mx else mn + ((j : Int) + 1) * step - 1)) ∧
      mn + (j : Int) * step ≤ mx := by
  intro H step hH hstep
  subst hH
  subst hstep
  obtain ⟨hlen, hstop, hget⟩ := width_histogram_loop_spec D N digest tv mn mx
    (width_histogram_step mn mx buckets) buckets buckets 0
  refine ⟨hlen, ?_, ?_⟩
  · intro hlt
    have := hstop hlt
    simpa using this
  · intro j hj
    have := hget j hj
    simpa using this

theorem cmsketch_width_histogram_c_float_step_spec_witness :
    (cmsketch_width_histogram_c 1 1 zeroDigest zero_sketch 0 9 3).length ≤ 3 := by
  have h := cmsketch_width_histogram_c_float_step_spec 1 1 zeroDigest zero_sketch
    0 9 3 (by decide) (by decide) _ _ rfl rfl
  exact h.1
